import Mathlib

/-!
Verification of the Asian barrier option Monte-Carlo kernels from the
CUDA processing example notebook.

The notebook defines three kernels with identical per-path bodies:
cpu_barrier_option (single thread, Numba njit), cpu_multicore_barrier_option
(Numba njit with parallel=True and a prange over paths), and
numba_gpu_barrier_option (cuda.jit, grid-strided loop over paths).

Embedding choices, mirrored from the source:
* Machine floats are embedded as exact rationals; properties that the spec
  states up to floating-point rounding become exact equalities here.
* The math library calls math.exp and math.sqrt are transcendental, so the
  kernels take two oracle functions mexp and msqrt standing for the library
  implementations; every theorem below holds for arbitrary oracles.
* Array reads d_normals[j] and the write d_s[i] = v are fallible: an
  out-of-range access yields none (the Python-level IndexError), so each
  kernel returns an Option, with none exactly when some access is out of
  range.
* The prange of the multicore kernel and the grid of the device kernel run
  path bodies in parallel with writes to disjoint slots; the functional
  model sequences the completed path computations in an explicit order
  (a schedule list for prange, the grid-strided index list for the device),
  which is faithful because each slot value depends only on the path index
  and the read-only draw buffer.
-/

namespace CudaBarrier

/-- Inner per-path loop of cpu_barrier_option and cpu_multicore_barrier_option:
for n in range(N_STEPS), advance the price by
s_curr += tmp1*s_curr + sigma*s_curr*tmp3*d_normals[i + n*N_PATHS], update
running_average = running_average + 1.0/(n + 1.0)*(s_curr - running_average),
and break as soon as running_average <= B. The arguments after i are the
current step index n, the remaining iteration count, s_curr and
running_average; the loop returns the last computed running average, or none
on an out-of-range read. -/
def cpuPathLoop (tmp1 sigma tmp3 B : ℚ) (d_normals : List ℚ) (N_PATHS i : ℕ) :
    ℕ → ℕ → ℚ → ℚ → Option ℚ
  | _, 0, _, running_average => some running_average
  | n, rem+1, s_curr, running_average =>
    match d_normals[i + n * N_PATHS]? with
    | none => none
    | some draw =>
      let s2 := s_curr + (tmp1 * s_curr + sigma * s_curr * tmp3 * draw)
      let avg2 := running_average + 1/((n : ℚ) + 1) * (s2 - running_average)
      if avg2 ≤ B then some avg2
      else cpuPathLoop tmp1 sigma tmp3 B d_normals N_PATHS i (n+1) rem s2 avg2

/-- Inner per-path loop of numba_gpu_barrier_option: identical to cpuPathLoop
except that the running average is updated as
running_average += (s_curr - running_average) / (n + 1.0). -/
def gpuPathLoop (tmp1 sigma tmp3 B : ℚ) (d_normals : List ℚ) (N_PATHS i : ℕ) :
    ℕ → ℕ → ℚ → ℚ → Option ℚ
  | _, 0, _, running_average => some running_average
  | n, rem+1, s_curr, running_average =>
    match d_normals[i + n * N_PATHS]? with
    | none => none
    | some draw =>
      let s2 := s_curr + (tmp1 * s_curr + sigma * s_curr * tmp3 * draw)
      let avg2 := running_average + (s2 - running_average)/((n : ℚ) + 1)
      if avg2 ≤ B then some avg2
      else gpuPathLoop tmp1 sigma tmp3 B d_normals N_PATHS i (n+1) rem s2 avg2

/-- Body of the outer loop of the two CPU kernels for one path index i:
start from s_curr = S0 and running_average = 0.0, run the inner loop, then
payoff = running_average - K if running_average > K else 0 and the stored
value is tmp2 * payoff. -/
def cpuPathPayoff (tmp1 tmp2 tmp3 sigma B K S0 : ℚ) (d_normals : List ℚ)
    (N_STEPS N_PATHS i : ℕ) : Option ℚ :=
  match cpuPathLoop tmp1 sigma tmp3 B d_normals N_PATHS i 0 N_STEPS S0 0 with
  | none => none
  | some running_average =>
    some (tmp2 * (if running_average > K then running_average - K else 0))

/-- Body of the grid-strided loop of numba_gpu_barrier_option for one path
index i, identical to cpuPathPayoff except for the running-average update
form inside the inner loop. -/
def gpuPathPayoff (tmp1 tmp2 tmp3 sigma B K S0 : ℚ) (d_normals : List ℚ)
    (N_STEPS N_PATHS i : ℕ) : Option ℚ :=
  match gpuPathLoop tmp1 sigma tmp3 B d_normals N_PATHS i 0 N_STEPS S0 0 with
  | none => none
  | some running_average =>
    some (tmp2 * (if running_average > K then running_average - K else 0))

/-- Sequencing of the independent per-path computations: for each path index
i in the given order, compute its value f i and store it at slot i of the
output buffer d_s (the source statement d_s[i] = tmp2 * payoff). A failed
path computation or an out-of-range write index yields none. -/
def processPaths (f : ℕ → Option ℚ) : List ℕ → List ℚ → Option (List ℚ)
  | [], d_s => some d_s
  | i :: rest, d_s =>
    match f i with
    | none => none
    | some v =>
      if i < d_s.length then processPaths f rest (d_s.set i v) else none

/-- Embedding of cpu_barrier_option(d_s, T, K, B, S0, sigma, mu, r,
d_normals, N_STEPS, N_PATHS): tmp1 = mu*T/N_STEPS, tmp2 = math.exp(-r*T),
tmp3 = math.sqrt(T/N_STEPS), then for i in range(N_PATHS) run the per-path
body and store the discounted payoff in d_s[i]. mexp and msqrt are the
oracle parameters standing for the math library calls. -/
def cpu_barrier_option (mexp msqrt : ℚ → ℚ) (d_s : List ℚ) (T K B S0 sigma mu r : ℚ)
    (d_normals : List ℚ) (N_STEPS N_PATHS : ℕ) : Option (List ℚ) :=
  let tmp1 := mu * T / (N_STEPS : ℚ)
  let tmp2 := mexp (-r * T)
  let tmp3 := msqrt (T / (N_STEPS : ℚ))
  processPaths (fun i => cpuPathPayoff tmp1 tmp2 tmp3 sigma B K S0 d_normals N_STEPS N_PATHS i)
    (List.range N_PATHS) d_s

/-- Embedding of cpu_multicore_barrier_option: the body is identical to
cpu_barrier_option, but the outer loop is a prange, so the paths are
distributed over threads and complete in an unspecified order; the schedule
argument records that order. A run of the source kernel corresponds to a
schedule that is a permutation of range(N_PATHS). -/
def cpu_multicore_barrier_option (schedule : List ℕ) (mexp msqrt : ℚ → ℚ) (d_s : List ℚ)
    (T K B S0 sigma mu r : ℚ) (d_normals : List ℚ) (N_STEPS N_PATHS : ℕ) : Option (List ℚ) :=
  let tmp1 := mu * T / (N_STEPS : ℚ)
  let tmp2 := mexp (-r * T)
  let tmp3 := msqrt (T / (N_STEPS : ℚ))
  processPaths (fun i => cpuPathPayoff tmp1 tmp2 tmp3 sigma B K S0 d_normals N_STEPS N_PATHS i)
    schedule d_s

/-- Embedding of the Python iterator range(start, stop, step) for a
nonnegative step: the indices visited by one execution unit of the
grid-strided loop (for i in range(ii, N_PATHS, stride)). -/
def rangeStride (start stop step : ℕ) : List ℕ :=
  (List.range ((stop - start + step - 1) / step)).map (fun k => start + k * step)

/-- Path indices processed by the whole device grid, unit by unit: unit
ii = cuda.threadIdx.x + cuda.blockIdx.x*cuda.blockDim.x ranges over
0..blocks*threads-1 and walks range(ii, N_PATHS, stride) with
stride = cuda.gridDim.x*cuda.blockDim.x = blocks*threads. -/
def gpuGridIndices (number_of_blocks number_of_threads N_PATHS : ℕ) : List ℕ :=
  (List.range (number_of_blocks * number_of_threads)).flatMap
    (fun ii => rangeStride ii N_PATHS (number_of_blocks * number_of_threads))

/-- Embedding of numba_gpu_barrier_option launched on a grid of
number_of_blocks blocks of number_of_threads threads: every unit runs the
same per-path body over its strided slice of the path range; since slots are
written per path index only, sequencing the units is a faithful model of the
parallel launch. -/
def numba_gpu_barrier_option (number_of_blocks number_of_threads : ℕ)
    (mexp msqrt : ℚ → ℚ) (d_s : List ℚ) (T K B S0 sigma mu r : ℚ)
    (d_normals : List ℚ) (N_STEPS N_PATHS : ℕ) : Option (List ℚ) :=
  let tmp1 := mu * T / (N_STEPS : ℚ)
  let tmp2 := mexp (-r * T)
  let tmp3 := msqrt (T / (N_STEPS : ℚ))
  processPaths (fun i => gpuPathPayoff tmp1 tmp2 tmp3 sigma B K S0 d_normals N_STEPS N_PATHS i)
    (gpuGridIndices number_of_blocks number_of_threads N_PATHS) d_s

/-- Price recurrence of one path, as the spec states it: the price starts at
spot and step n advances it by a drift increment plus a volatility-scaled
random increment, using the draw of step n. -/
def sSeq (tmp1 sigma tmp3 S0 : ℚ) (draw : ℕ → ℚ) : ℕ → ℚ
  | 0 => S0
  | n+1 =>
    let s := sSeq tmp1 sigma tmp3 S0 draw n
    s + (tmp1 * s + sigma * s * tmp3 * draw n)

/-- Running-average recurrence of one path, as the spec states it: the
average starts at zero and step n folds in the just-updated price as a
streaming mean. -/
def avgSeq (tmp1 sigma tmp3 S0 : ℚ) (draw : ℕ → ℚ) : ℕ → ℚ
  | 0 => 0
  | n+1 =>
    let a := avgSeq tmp1 sigma tmp3 S0 draw n
    a + 1/((n : ℚ) + 1) * (sSeq tmp1 sigma tmp3 S0 draw (n+1) - a)

/-- Step at which the per-path loop stops when started at step index n with
rem iterations left: the first m > n with avg m ≤ B, if it occurs within the
remaining iterations, else n + rem. -/
def stopIndex (B : ℚ) (avg : ℕ → ℚ) : ℕ → ℕ → ℕ
  | n, 0 => n
  | n, rem+1 => if avg (n+1) ≤ B then n+1 else stopIndex B avg (n+1) rem

/-- Memory a kernel call can see: the random draw buffer and the output
buffer. -/
structure SimHeap where
  normals : List ℚ
  out : List ℚ

/-- Run of cpu_barrier_option on a heap. The source body contains no store
to d_normals, which the embedding reflects: the draw component of the
resulting heap is the one that was read. -/
def cpuBarrierOptionOnHeap (mexp msqrt : ℚ → ℚ) (heap : SimHeap)
    (T K B S0 sigma mu r : ℚ) (N_STEPS N_PATHS : ℕ) : Option SimHeap :=
  match cpu_barrier_option mexp msqrt heap.out T K B S0 sigma mu r heap.normals N_STEPS N_PATHS with
  | none => none
  | some out2 => some { normals := heap.normals, out := out2 }

/-- Run of cpu_multicore_barrier_option on a heap; as for the serial kernel,
the source body contains no store to d_normals. -/
def cpuMulticoreBarrierOptionOnHeap (schedule : List ℕ) (mexp msqrt : ℚ → ℚ) (heap : SimHeap)
    (T K B S0 sigma mu r : ℚ) (N_STEPS N_PATHS : ℕ) : Option SimHeap :=
  match cpu_multicore_barrier_option schedule mexp msqrt heap.out T K B S0 sigma mu r heap.normals N_STEPS N_PATHS with
  | none => none
  | some out2 => some { normals := heap.normals, out := out2 }

/-- Run of numba_gpu_barrier_option on a heap; as for the CPU kernels, the
source body contains no store to d_normals. -/
def numbaGpuBarrierOptionOnHeap (number_of_blocks number_of_threads : ℕ)
    (mexp msqrt : ℚ → ℚ) (heap : SimHeap) (T K B S0 sigma mu r : ℚ)
    (N_STEPS N_PATHS : ℕ) : Option SimHeap :=
  match numba_gpu_barrier_option number_of_blocks number_of_threads mexp msqrt heap.out T K B S0 sigma mu r heap.normals N_STEPS N_PATHS with
  | none => none
  | some out2 => some { normals := heap.normals, out := out2 }

/-- The two forms of the running-average update agree exactly: the CPU
kernels multiply by the reciprocal, the device kernel divides. -/
lemma cpuPathLoop_eq_gpuPathLoop (tmp1 sigma tmp3 B : ℚ) (d_normals : List ℚ)
    (N_PATHS i : ℕ) : ∀ (rem n : ℕ) (s_curr running_average : ℚ),
    cpuPathLoop tmp1 sigma tmp3 B d_normals N_PATHS i n rem s_curr running_average
      = gpuPathLoop tmp1 sigma tmp3 B d_normals N_PATHS i n rem s_curr running_average := by
  intro rem
  induction rem with
  | zero => intro n s a; rfl
  | succ rem ih =>
    intro n s a
    rw [cpuPathLoop, gpuPathLoop]
    cases hd : d_normals[i + n * N_PATHS]? with
    | none => rfl
    | some draw =>
      simp only
      have havg : a + 1/((n : ℚ) + 1) * ((s + (tmp1*s + sigma*s*tmp3*draw)) - a)
          = a + ((s + (tmp1*s + sigma*s*tmp3*draw)) - a)/((n : ℚ) + 1) := by ring
      rw [havg, ih]

/-- The per-path values of the CPU and device kernels agree exactly. -/
lemma cpuPathPayoff_eq_gpuPathPayoff (tmp1 tmp2 tmp3 sigma B K S0 : ℚ)
    (d_normals : List ℚ) (N_STEPS N_PATHS i : ℕ) :
    cpuPathPayoff tmp1 tmp2 tmp3 sigma B K S0 d_normals N_STEPS N_PATHS i
      = gpuPathPayoff tmp1 tmp2 tmp3 sigma B K S0 d_normals N_STEPS N_PATHS i := by
  rw [cpuPathPayoff, gpuPathPayoff, cpuPathLoop_eq_gpuPathLoop]

/-- Running the paths of an order preserves the buffer length and leaves
every slot whose index is not in the order untouched. -/
lemma processPaths_frame (f : ℕ → Option ℚ) :
    ∀ (order : List ℕ) (d_s out : List ℚ), processPaths f order d_s = some out →
      out.length = d_s.length ∧ ∀ j : ℕ, j ∉ order → out[j]? = d_s[j]? := by
  intro order
  induction order with
  | nil =>
    intro d_s out h
    simp only [processPaths, Option.some.injEq] at h
    subst h
    exact ⟨rfl, fun j _ => rfl⟩
  | cons i rest ih =>
    intro d_s out h
    rw [processPaths] at h
    cases hf : f i with
    | none => rw [hf] at h; exact absurd h (by simp)
    | some v =>
      rw [hf] at h
      simp only at h
      by_cases hlen : i < d_s.length
      · rw [if_pos hlen] at h
        rcases ih (d_s.set i v) out h with ⟨h1, h2⟩
        refine ⟨h1.trans (List.length_set ..), fun j hj => ?_⟩
        have hji : i ≠ j := fun e => hj (e ▸ List.mem_cons_self i rest)
        have hjr : j ∉ rest := fun e => hj (List.mem_cons_of_mem i e)
        rw [h2 j hjr, List.getElem?_set_ne hji]
      · rw [if_neg hlen] at h; exact absurd h (by simp)

/-- Running the paths fails exactly when some path of the order either has a
failing body (an out-of-range read) or an out-of-range write slot. -/
lemma processPaths_none_iff (f : ℕ → Option ℚ) :
    ∀ (order : List ℕ) (d_s : List ℚ), processPaths f order d_s = none ↔
      ∃ i ∈ order, f i = none ∨ d_s.length ≤ i := by
  intro order
  induction order with
  | nil => intro d_s; simp [processPaths]
  | cons i rest ih =>
    intro d_s
    rw [processPaths]
    cases hf : f i with
    | none =>
      simp only [true_iff]
      exact ⟨i, List.mem_cons_self i rest, Or.inl hf⟩
    | some v =>
      simp only
      by_cases hlen : i < d_s.length
      · rw [if_pos hlen, ih (d_s.set i v)]
        constructor
        · rintro ⟨j, hj, hc⟩
          exact ⟨j, List.mem_cons_of_mem i hj, by rw [List.length_set] at hc; exact hc⟩
        · rintro ⟨j, hj, hc⟩
          rcases List.mem_cons.mp hj with he | hj2
          · subst he
            rcases hc with hc | hc
            · rw [hf] at hc; exact absurd hc (by simp)
            · omega
          · exact ⟨j, hj2, by rw [List.length_set]; exact hc⟩
      · rw [if_neg hlen]
        simp only [true_iff]
        exact ⟨i, List.mem_cons_self i rest, Or.inr (by omega)⟩

/-- When every path body of the order succeeds with value v i and every
write slot is in range, running the paths folds the writes over the
buffer. -/
lemma processPaths_eq_foldl (f : ℕ → Option ℚ) (v : ℕ → ℚ) :
    ∀ (order : List ℕ) (d_s : List ℚ), (∀ i ∈ order, f i = some (v i)) →
      (∀ i ∈ order, i < d_s.length) →
      processPaths f order d_s
        = some (order.foldl (fun a i => a.set i (v i)) d_s) := by
  intro order
  induction order with
  | nil => intro d_s _ _; rfl
  | cons i rest ih =>
    intro d_s hv hlen
    rw [processPaths, hv i (List.mem_cons_self i rest)]
    simp only
    rw [if_pos (hlen i (List.mem_cons_self i rest))]
    rw [ih (d_s.set i (v i)) (fun j hj => hv j (List.mem_cons_of_mem i hj))
      (fun j hj => by rw [List.length_set]; exact hlen j (List.mem_cons_of_mem i hj))]
    rw [List.foldl_cons]

/-- Slotwise description of folding the writes v i over the buffer: a slot
of the order holds its written value, every other slot is untouched. -/
lemma foldl_set_getElem? (v : ℕ → ℚ) :
    ∀ (order : List ℕ) (d_s : List ℚ) (j : ℕ),
      (order.foldl (fun a i => a.set i (v i)) d_s)[j]?
        = if j ∈ order then (d_s.set j (v j))[j]? else d_s[j]? := by
  intro order
  induction order with
  | nil => intro d_s j; simp
  | cons i rest ih =>
    intro d_s j
    rw [List.foldl_cons, ih]
    by_cases hjr : j ∈ rest
    · rw [if_pos hjr, if_pos (List.mem_cons_of_mem i hjr)]
      rw [List.getElem?_set, List.getElem?_set, List.length_set]
      simp [List.getElem?_set]
    · rw [if_neg hjr]
      by_cases hji : j = i
      · subst hji
        rw [if_pos (List.mem_cons_self j rest)]
      · rw [if_neg (by simp [hji, hjr]), List.getElem?_set_ne (fun e => hji e.symm)]

/-- Two orders with the same members process the paths to the same result:
the slot values depend only on the path index, not on the schedule. -/
lemma processPaths_congr_order (f : ℕ → Option ℚ) (or1 or2 : List ℕ)
    (hmem : ∀ i : ℕ, i ∈ or1 ↔ i ∈ or2) (d_s : List ℚ) :
    processPaths f or1 d_s = processPaths f or2 d_s := by
  by_cases hbad : ∃ i ∈ or1, f i = none ∨ d_s.length ≤ i
  · have h1 : processPaths f or1 d_s = none := (processPaths_none_iff f or1 d_s).mpr hbad
    have h2 : processPaths f or2 d_s = none := by
      rcases hbad with ⟨i, hi, hc⟩
      exact (processPaths_none_iff f or2 d_s).mpr ⟨i, (hmem i).mp hi, hc⟩
    rw [h1, h2]
  · push_neg at hbad
    have hgood : ∀ i ∈ or1, f i = some ((f i).getD 0) := by
      intro i hi
      rcases hbad i hi with ⟨hne, _⟩
      cases hfi : f i with
      | none => exact absurd hfi hne
      | some v => rfl
    have hgood2 : ∀ i ∈ or2, f i = some ((f i).getD 0) := fun i hi =>
      hgood i ((hmem i).mpr hi)
    have hlen1 : ∀ i ∈ or1, i < d_s.length := fun i hi => (hbad i hi).2
    have hlen2 : ∀ i ∈ or2, i < d_s.length := fun i hi => hlen1 i ((hmem i).mpr hi)
    rw [processPaths_eq_foldl f (fun i => (f i).getD 0) or1 d_s hgood hlen1,
      processPaths_eq_foldl f (fun i => (f i).getD 0) or2 d_s hgood2 hlen2]
    refine congrArg some (List.ext_getElem? fun j => ?_)
    rw [foldl_set_getElem?, foldl_set_getElem?]
    by_cases hj : j ∈ or1
    · rw [if_pos hj, if_pos ((hmem j).mp hj)]
    · rw [if_neg hj, if_neg (fun e => hj ((hmem j).mpr e))]

/-- The stop step is not before the start step. -/
lemma stopIndex_ge (B : ℚ) (avg : ℕ → ℚ) : ∀ (rem n : ℕ), n ≤ stopIndex B avg n rem := by
  intro rem
  induction rem with
  | zero => intro n; exact Nat.le_refl n
  | succ rem ih =>
    intro n
    rw [stopIndex]
    by_cases hB : avg (n+1) ≤ B
    · rw [if_pos hB]; omega
    · rw [if_neg hB]; exact Nat.le_of_succ_le (ih (n+1))

/-- The stop step is within the remaining iteration budget. -/
lemma stopIndex_le (B : ℚ) (avg : ℕ → ℚ) : ∀ (rem n : ℕ), stopIndex B avg n rem ≤ n + rem := by
  intro rem
  induction rem with
  | zero => intro n; exact Nat.le_refl n
  | succ rem ih =>
    intro n
    rw [stopIndex]
    by_cases hB : avg (n+1) ≤ B
    · rw [if_pos hB]; omega
    · rw [if_neg hB]
      have := ih (n+1)
      omega

/-- The stop step is the first step after the start at which the running
average is at or below the barrier, when such a step exists in the budget. -/
lemma stopIndex_eq_of_first_breach (B : ℚ) (avg : ℕ → ℚ) :
    ∀ (rem n m : ℕ), n < m → m ≤ n + rem → avg m ≤ B →
      (∀ k, n < k → k < m → B < avg k) → stopIndex B avg n rem = m := by
  intro rem
  induction rem with
  | zero => intro n m h1 h2 _ _; omega
  | succ rem ih =>
    intro n m h1 h2 hm hfirst
    rw [stopIndex]
    by_cases hB : avg (n+1) ≤ B
    · rw [if_pos hB]
      by_contra hne
      have hlt : n + 1 < m := by omega
      exact absurd hB (not_le.mpr (hfirst (n+1) (by omega) hlt))
    · rw [if_neg hB]
      have hm1 : m ≠ n + 1 := fun e => hB (e ▸ hm)
      exact ih (n+1) m (by omega) (by omega) hm
        (fun k hk1 hk2 => hfirst k (by omega) hk2)

/-- When the running average stays above the barrier throughout the budget,
the loop runs to completion. -/
lemma stopIndex_eq_of_no_breach (B : ℚ) (avg : ℕ → ℚ) :
    ∀ (rem n : ℕ), (∀ k, n < k → k ≤ n + rem → B < avg k) →
      stopIndex B avg n rem = n + rem := by
  intro rem
  induction rem with
  | zero => intro n _; rfl
  | succ rem ih =>
    intro n hall
    rw [stopIndex, if_neg (not_le.mpr (hall (n+1) (by omega) (by omega)))]
    have := ih (n+1) (fun k hk1 hk2 => hall k (by omega) (by omega))
    omega

/-- Characterization of the CPU per-path loop: started at step n on the
price and average given by the spec recurrences, it returns the running
average at the stop step, provided the draws it actually reads (those at
steps before the stop step) are in range with the values of the abstract
draw sequence. -/
lemma cpuPathLoop_spec (tmp1 sigma tmp3 B S0 : ℚ) (dval : ℕ → ℚ) (d_normals : List ℚ)
    (N_PATHS i : ℕ) :
    ∀ (rem n : ℕ),
      (∀ k, n ≤ k → k < stopIndex B (avgSeq tmp1 sigma tmp3 S0 dval) n rem →
        d_normals[i + k * N_PATHS]? = some (dval k)) →
      cpuPathLoop tmp1 sigma tmp3 B d_normals N_PATHS i n rem
          (sSeq tmp1 sigma tmp3 S0 dval n) (avgSeq tmp1 sigma tmp3 S0 dval n)
        = some (avgSeq tmp1 sigma tmp3 S0 dval
            (stopIndex B (avgSeq tmp1 sigma tmp3 S0 dval) n rem)) := by
  intro rem
  induction rem with
  | zero => intro n _; rfl
  | succ rem ih =>
    intro n hreads
    have hstop1 : n < stopIndex B (avgSeq tmp1 sigma tmp3 S0 dval) n (rem+1) := by
      rw [stopIndex]
      by_cases hB : avgSeq tmp1 sigma tmp3 S0 dval (n+1) ≤ B
      · rw [if_pos hB]; omega
      · rw [if_neg hB]
        have := stopIndex_ge B (avgSeq tmp1 sigma tmp3 S0 dval) rem (n+1)
        omega
    have hread0 := hreads n (Nat.le_refl n) hstop1
    rw [cpuPathLoop, hread0]
    simp only
    have hs2 : sSeq tmp1 sigma tmp3 S0 dval n
        + (tmp1 * sSeq tmp1 sigma tmp3 S0 dval n
          + sigma * sSeq tmp1 sigma tmp3 S0 dval n * tmp3 * dval n)
        = sSeq tmp1 sigma tmp3 S0 dval (n+1) := by
      rw [sSeq]
    have ha2 : avgSeq tmp1 sigma tmp3 S0 dval n
        + 1/((n : ℚ) + 1) * (sSeq tmp1 sigma tmp3 S0 dval n
          + (tmp1 * sSeq tmp1 sigma tmp3 S0 dval n
            + sigma * sSeq tmp1 sigma tmp3 S0 dval n * tmp3 * dval n)
          - avgSeq tmp1 sigma tmp3 S0 dval n)
        = avgSeq tmp1 sigma tmp3 S0 dval (n+1) := by
      rw [hs2]
      rw [avgSeq]
    rw [ha2, hs2]
    by_cases hB : avgSeq tmp1 sigma tmp3 S0 dval (n+1) ≤ B
    · rw [if_pos hB]
      have hstopeq : stopIndex B (avgSeq tmp1 sigma tmp3 S0 dval) n (rem+1) = n+1 := by
        rw [stopIndex, if_pos hB]
      rw [hstopeq]
    · rw [if_neg hB]
      have hstopeq : stopIndex B (avgSeq tmp1 sigma tmp3 S0 dval) n (rem+1)
          = stopIndex B (avgSeq tmp1 sigma tmp3 S0 dval) (n+1) rem := by
        rw [stopIndex, if_neg hB]
      rw [hstopeq]
      exact ih (n+1) (fun k hk1 hk2 => hreads k (by omega) (by rw [hstopeq]; exact hk2))

/-- Inversion of one step of processPaths. -/
lemma processPaths_cons_inv (f : ℕ → Option ℚ) (i : ℕ) (rest : List ℕ)
    (d_s out : List ℚ) (h : processPaths f (i :: rest) d_s = some out) :
    ∃ v, f i = some v ∧ i < d_s.length ∧ processPaths f rest (d_s.set i v) = some out := by
  rw [processPaths] at h
  cases hf : f i with
  | none => rw [hf] at h; exact absurd h (by simp)
  | some v =>
    rw [hf] at h
    simp only at h
    by_cases hlen : i < d_s.length
    · rw [if_pos hlen] at h
      exact ⟨v, rfl, hlen, h⟩
    · rw [if_neg hlen] at h
      exact absurd h (by simp)

/-- On a duplicate-free order, a successful run stores at each slot of the
order exactly the value its path body computed. -/
lemma processPaths_getElem_of_nodup (f : ℕ → Option ℚ) :
    ∀ (order : List ℕ), order.Nodup → ∀ (d_s out : List ℚ),
      processPaths f order d_s = some out →
      ∀ j ∈ order, ∃ w, f j = some w ∧ out[j]? = some w := by
  intro order
  induction order with
  | nil => intro _ d_s out _ j hj; exact absurd hj (List.not_mem_nil j)
  | cons i rest ih =>
    intro hnd d_s out h j hj
    rcases processPaths_cons_inv f i rest d_s out h with ⟨v, hfi, hlen, hrest⟩
    rcases List.nodup_cons.mp hnd with ⟨hnotin, hndrest⟩
    rcases List.mem_cons.mp hj with he | hj2
    · subst he
      refine ⟨v, hfi, ?_⟩
      rcases processPaths_frame f rest (d_s.set j v) out hrest with ⟨_, hfr⟩
      rw [hfr j hnotin, List.getElem?_set_self hlen]
    · exact ih hndrest (d_s.set i v) out hrest j hj2

/-- Every index visited by one strided iterator stays below the stop
bound. -/
lemma rangeStride_mem_lt (start stop step x : ℕ) (hx : x ∈ rangeStride start stop step) :
    x < stop := by
  rw [rangeStride] at hx
  rcases List.mem_map.mp hx with ⟨k, hk, he⟩
  rw [List.mem_range] at hk
  by_cases hstep : 0 < step
  · have hlen1 : 1 ≤ (stop - start + step - 1) / step := by omega
    have hge : step ≤ stop - start + step - 1 := (Nat.one_le_div_iff hstep).mp hlen1
    have hmul : (stop - start + step - 1) / step * step ≤ stop - start + step - 1 :=
      Nat.div_mul_le_self _ _
    have hkk : (k + 1) * step ≤ (stop - start + step - 1) / step * step :=
      Nat.mul_le_mul_right step (by omega)
    rw [Nat.succ_mul] at hkk
    omega
  · have hstep0 : step = 0 := by omega
    rw [hstep0] at hk
    simp at hk

/-- Every path index of the device grid stays below the path count. -/
lemma gpuGridIndices_mem_lt (number_of_blocks number_of_threads N_PATHS x : ℕ)
    (hx : x ∈ gpuGridIndices number_of_blocks number_of_threads N_PATHS) : x < N_PATHS := by
  rw [gpuGridIndices] at hx
  rcases List.mem_flatMap.mp hx with ⟨ii, _, hmem⟩
  exact rangeStride_mem_lt ii N_PATHS _ x hmem

/-- When the stride is at least the stop bound, one strided iterator visits
its start index if that is in range and nothing otherwise. -/
lemma rangeStride_of_ge (start stop step : ℕ) (hst : stop ≤ step) :
    rangeStride start stop step = if start < stop then [start] else [] := by
  rw [rangeStride]
  by_cases hlt : start < stop
  · rw [if_pos hlt]
    have hstep : 0 < step := by omega
    have hlen : (stop - start + step - 1) / step = 1 := by
      have h1 : 1 ≤ (stop - start + step - 1) / step :=
        (Nat.one_le_div_iff hstep).mpr (by omega)
      have h2 : (stop - start + step - 1) / step < 2 :=
        Nat.div_lt_of_lt_mul (by omega)
      omega
    rw [hlen, show List.range 1 = [0] from rfl]
    simp
  · rw [if_neg hlt]
    have hlen : (stop - start + step - 1) / step = 0 := by
      have hsub : stop - start = 0 := by omega
      rw [hsub]
      by_cases hstep : 0 < step
      · exact Nat.div_eq_of_lt (by omega)
      · have : step = 0 := by omega
        rw [this]

    rw [hlen]
    simp

/-- Concatenating the singleton contributions of units 0..u-1 yields the
initial segment of the indices below both bounds. -/
lemma flatMap_if_singleton (p : ℕ) : ∀ (u : ℕ),
    (List.range u).flatMap (fun ii => if ii < p then [ii] else [])
      = List.range (min u p) := by
  intro u
  induction u with
  | zero => simp
  | succ u ih =>
    rw [List.range_succ, List.flatMap_append, ih]
    by_cases hup : u < p
    · rw [Nat.min_eq_left (by omega), Nat.min_eq_left (by omega)]
      simp [hup, List.range_succ]
    · rw [Nat.min_eq_right (by omega), Nat.min_eq_right (by omega)]
      simp [hup]

/-- Under the launch configuration of the notebook the grid has at least as
many units as paths. -/
lemma launch_units_ge (N_PATHS number_of_threads : ℕ) (ht : 0 < number_of_threads)
    (hp : 0 < N_PATHS) :
    N_PATHS ≤ ((N_PATHS - 1) / number_of_threads + 1) * number_of_threads := by
  have hdm := Nat.div_add_mod (N_PATHS - 1) number_of_threads
  have hmod : (N_PATHS - 1) % number_of_threads < number_of_threads :=
    Nat.mod_lt _ ht
  have hexpand : ((N_PATHS - 1) / number_of_threads + 1) * number_of_threads
      = number_of_threads * ((N_PATHS - 1) / number_of_threads) + number_of_threads := by
    ring
  omega

/-- Under the launch configuration of the notebook, the concatenated
grid-strided iterations enumerate exactly the path indices 0..N_PATHS-1 in
order. -/
lemma gpuGridIndices_eq_range (N_PATHS number_of_threads : ℕ)
    (ht : 0 < number_of_threads) (hp : 0 < N_PATHS) :
    gpuGridIndices ((N_PATHS - 1) / number_of_threads + 1) number_of_threads N_PATHS
      = List.range N_PATHS := by
  have hpu := launch_units_ge N_PATHS number_of_threads ht hp
  rw [gpuGridIndices]
  have hstride : ∀ ii : ℕ,
      rangeStride ii N_PATHS (((N_PATHS - 1) / number_of_threads + 1) * number_of_threads)
        = if ii < N_PATHS then [ii] else [] :=
    fun ii => rangeStride_of_ge ii N_PATHS _ hpu
  simp only [hstride]
  rw [flatMap_if_singleton]
  rw [Nat.min_eq_right hpu]

/-- The single payoff formula of the source agrees with the max form of the
spec. -/
lemma payoff_if_eq_max (x y : ℚ) : (if x > y then x - y else 0) = max (x - y) 0 := by
  by_cases h : x > y
  · rw [if_pos h, max_eq_left (by linarith)]
  · rw [if_neg h, max_eq_right (by linarith)]

/-- Characterization of one CPU path body: it returns the discounted payoff
computed from the running average at the stop step, provided the draws read
before the stop step are in range with the values of the abstract draw
sequence. -/
lemma cpuPathPayoff_eq_spec (tmp1 tmp2 tmp3 sigma B K S0 : ℚ) (dval : ℕ → ℚ)
    (d_normals : List ℚ) (N_STEPS N_PATHS i : ℕ)
    (hreads : ∀ k, k < stopIndex B (avgSeq tmp1 sigma tmp3 S0 dval) 0 N_STEPS →
      d_normals[i + k * N_PATHS]? = some (dval k)) :
    cpuPathPayoff tmp1 tmp2 tmp3 sigma B K S0 d_normals N_STEPS N_PATHS i
      = some (tmp2 * (if avgSeq tmp1 sigma tmp3 S0 dval
            (stopIndex B (avgSeq tmp1 sigma tmp3 S0 dval) 0 N_STEPS) > K
          then avgSeq tmp1 sigma tmp3 S0 dval
            (stopIndex B (avgSeq tmp1 sigma tmp3 S0 dval) 0 N_STEPS) - K
          else 0)) := by
  have hloop : cpuPathLoop tmp1 sigma tmp3 B d_normals N_PATHS i 0 N_STEPS S0 0
      = some (avgSeq tmp1 sigma tmp3 S0 dval
          (stopIndex B (avgSeq tmp1 sigma tmp3 S0 dval) 0 N_STEPS)) :=
    cpuPathLoop_spec tmp1 sigma tmp3 B S0 dval d_normals N_PATHS i N_STEPS 0
      (fun k _ hk => hreads k hk)
  rw [cpuPathPayoff, hloop]

/-- Inversion of one CPU path body: a successful value is the discounted
single payoff formula applied to the loop result. -/
lemma cpuPathPayoff_inv (tmp1 tmp2 tmp3 sigma B K S0 : ℚ) (d_normals : List ℚ)
    (N_STEPS N_PATHS i : ℕ) (w : ℚ)
    (h : cpuPathPayoff tmp1 tmp2 tmp3 sigma B K S0 d_normals N_STEPS N_PATHS i = some w) :
    ∃ running_average,
      cpuPathLoop tmp1 sigma tmp3 B d_normals N_PATHS i 0 N_STEPS S0 0 = some running_average
        ∧ w = tmp2 * (if running_average > K then running_average - K else 0) := by
  rw [cpuPathPayoff] at h
  cases hl : cpuPathLoop tmp1 sigma tmp3 B d_normals N_PATHS i 0 N_STEPS S0 0 with
  | none => rw [hl] at h; exact absurd h (by simp)
  | some ra =>
    rw [hl] at h
    simp only [Option.some.injEq] at h
    exact ⟨ra, rfl, h.symm⟩

/-- Under correct buffer sizing the reads of one path are all in range. -/
lemma reads_of_sized (d_normals : List ℚ) (N_STEPS N_PATHS i : ℕ) (hi : i < N_PATHS)
    (hlen : N_PATHS * N_STEPS ≤ d_normals.length) :
    ∀ k, k < N_STEPS →
      d_normals[i + k * N_PATHS]? = some ((d_normals[i + k * N_PATHS]?).getD 0) := by
  intro k hk
  have hidx : i + k * N_PATHS < d_normals.length := by
    have h1 : i + k * N_PATHS < (k + 1) * N_PATHS := by
      rw [Nat.succ_mul]; omega
    have h2 : (k + 1) * N_PATHS ≤ N_STEPS * N_PATHS :=
      Nat.mul_le_mul_right _ (by omega)
    have h3 : N_STEPS * N_PATHS = N_PATHS * N_STEPS := Nat.mul_comm _ _
    omega
  rw [List.getElem?_eq_getElem hidx]
  rfl

/-- Under correct buffer sizing one CPU path body cannot fail. -/
lemma cpuPathPayoff_ne_none_of_sized (tmp1 tmp2 tmp3 sigma B K S0 : ℚ)
    (d_normals : List ℚ) (N_STEPS N_PATHS i : ℕ) (hi : i < N_PATHS)
    (hlen : N_PATHS * N_STEPS ≤ d_normals.length) :
    cpuPathPayoff tmp1 tmp2 tmp3 sigma B K S0 d_normals N_STEPS N_PATHS i ≠ none := by
  rw [cpuPathPayoff_eq_spec tmp1 tmp2 tmp3 sigma B K S0
    (fun m => (d_normals[i + m * N_PATHS]?).getD 0) d_normals N_STEPS N_PATHS i
    (fun k hk => reads_of_sized d_normals N_STEPS N_PATHS i hi hlen k
      (by
        have h := stopIndex_le B
          (avgSeq tmp1 sigma tmp3 S0 (fun m => (d_normals[i + m * N_PATHS]?).getD 0)) N_STEPS 0
        omega))]
  simp

/-- Unfolding of the serial kernel to the path fold. -/
lemma cpu_barrier_option_def (mexp msqrt : ℚ → ℚ) (d_s : List ℚ) (T K B S0 sigma mu r : ℚ)
    (d_normals : List ℚ) (N_STEPS N_PATHS : ℕ) :
    cpu_barrier_option mexp msqrt d_s T K B S0 sigma mu r d_normals N_STEPS N_PATHS
      = processPaths (fun i => cpuPathPayoff (mu * T / (N_STEPS : ℚ)) (mexp (-r * T))
          (msqrt (T / (N_STEPS : ℚ))) sigma B K S0 d_normals N_STEPS N_PATHS i)
          (List.range N_PATHS) d_s := rfl

/-- Unfolding of the multicore kernel to the path fold over its schedule. -/
lemma cpu_multicore_barrier_option_def (schedule : List ℕ) (mexp msqrt : ℚ → ℚ)
    (d_s : List ℚ) (T K B S0 sigma mu r : ℚ) (d_normals : List ℚ) (N_STEPS N_PATHS : ℕ) :
    cpu_multicore_barrier_option schedule mexp msqrt d_s T K B S0 sigma mu r d_normals N_STEPS N_PATHS
      = processPaths (fun i => cpuPathPayoff (mu * T / (N_STEPS : ℚ)) (mexp (-r * T))
          (msqrt (T / (N_STEPS : ℚ))) sigma B K S0 d_normals N_STEPS N_PATHS i)
          schedule d_s := rfl

/-- Unfolding of the device kernel to the path fold over the grid-strided
index list. -/
lemma numba_gpu_barrier_option_def (number_of_blocks number_of_threads : ℕ)
    (mexp msqrt : ℚ → ℚ) (d_s : List ℚ) (T K B S0 sigma mu r : ℚ)
    (d_normals : List ℚ) (N_STEPS N_PATHS : ℕ) :
    numba_gpu_barrier_option number_of_blocks number_of_threads mexp msqrt d_s T K B S0 sigma mu r d_normals N_STEPS N_PATHS
      = processPaths (fun i => gpuPathPayoff (mu * T / (N_STEPS : ℚ)) (mexp (-r * T))
          (msqrt (T / (N_STEPS : ℚ))) sigma B K S0 d_normals N_STEPS N_PATHS i)
          (gpuGridIndices number_of_blocks number_of_threads N_PATHS) d_s := rfl

/-- A strided iterator over an empty index range visits nothing. -/
lemma rangeStride_stop_zero (start step : ℕ) : rangeStride start 0 step = [] := by
  rw [rangeStride]
  have h0 : (0 - start + step - 1) / step = 0 := by
    rcases Nat.eq_zero_or_pos step with h | h
    · rw [h, Nat.div_zero]
    · exact Nat.div_eq_of_lt (by omega)
  rw [h0]
  rfl

/-- With zero paths the device grid visits nothing. -/
lemma gpuGridIndices_paths_zero (number_of_blocks number_of_threads : ℕ) :
    gpuGridIndices number_of_blocks number_of_threads 0 = [] := by
  rw [gpuGridIndices]
  simp [rangeStride_stop_zero]

/-- C1: for a fixed parameter set and a fixed random draw buffer, the
serial, shared-memory-parallel and device-parallel strategies produce
equal output buffers (exactly equal in the exact-arithmetic embedding,
hence equal up to floating-point rounding in the source): the multicore
kernel agrees with the serial one for every schedule prange may choose, and
the device kernel launched with number_of_blocks = (N_PATHS-1)//number_of_threads + 1
agrees with the serial one. -/
theorem claim_C1_strategies_agree (mexp msqrt : ℚ → ℚ) (d_s : List ℚ)
    (T K B S0 sigma mu r : ℚ) (d_normals : List ℚ) (N_STEPS N_PATHS : ℕ)
    (schedule : List ℕ) (hsched : schedule.Perm (List.range N_PATHS))
    (number_of_blocks number_of_threads : ℕ)
    (hblocks : number_of_blocks = (N_PATHS - 1) / number_of_threads + 1)
    (ht : 0 < number_of_threads) (hp : 0 < N_PATHS) :
    cpu_multicore_barrier_option schedule mexp msqrt d_s T K B S0 sigma mu r d_normals N_STEPS N_PATHS
        = cpu_barrier_option mexp msqrt d_s T K B S0 sigma mu r d_normals N_STEPS N_PATHS
      ∧ numba_gpu_barrier_option number_of_blocks number_of_threads mexp msqrt d_s T K B S0 sigma mu r d_normals N_STEPS N_PATHS
        = cpu_barrier_option mexp msqrt d_s T K B S0 sigma mu r d_normals N_STEPS N_PATHS := by
  constructor
  · rw [cpu_multicore_barrier_option_def, cpu_barrier_option_def]
    exact processPaths_congr_order _ schedule (List.range N_PATHS)
      (fun i => hsched.mem_iff) d_s
  · rw [numba_gpu_barrier_option_def, cpu_barrier_option_def]
    have hf : (fun i => gpuPathPayoff (mu * T / (N_STEPS : ℚ)) (mexp (-r * T))
          (msqrt (T / (N_STEPS : ℚ))) sigma B K S0 d_normals N_STEPS N_PATHS i)
        = (fun i => cpuPathPayoff (mu * T / (N_STEPS : ℚ)) (mexp (-r * T))
          (msqrt (T / (N_STEPS : ℚ))) sigma B K S0 d_normals N_STEPS N_PATHS i) :=
      funext fun i => (cpuPathPayoff_eq_gpuPathPayoff _ _ _ _ _ _ _ _ _ _ i).symm
    rw [hf, hblocks, gpuGridIndices_eq_range N_PATHS number_of_threads ht hp]

/-- Witness for C1 at a concrete instance: two paths, two steps, the
schedule that runs path 1 before path 0, and a grid of two one-thread
blocks. -/
theorem claim_C1_witness :
    cpu_multicore_barrier_option [1, 0] (fun _ => 1) (fun _ => 1) [0, 0] 1 1 1 2 1 1 1 [0, 0, 0, 0] 2 2
        = cpu_barrier_option (fun _ => 1) (fun _ => 1) [0, 0] 1 1 1 2 1 1 1 [0, 0, 0, 0] 2 2
      ∧ numba_gpu_barrier_option 2 1 (fun _ => 1) (fun _ => 1) [0, 0] 1 1 1 2 1 1 1 [0, 0, 0, 0] 2 2
        = cpu_barrier_option (fun _ => 1) (fun _ => 1) [0, 0] 1 1 1 2 1 1 1 [0, 0, 0, 0] 2 2 :=
  claim_C1_strategies_agree (fun _ => 1) (fun _ => 1) [0, 0] 1 1 1 2 1 1 1 [0, 0, 0, 0] 2 2
    [1, 0] (by decide) 2 1 (by decide) (by decide) (by decide)

/-- C5: under the launch configuration of the notebook the grid-strided
loops of all execution units together enumerate exactly the path indices
0..N_PATHS-1 (each exactly once, so each output slot is written exactly
once), and each unit processes either the ceiling or the floor of
path count / unit count paths. -/
theorem claim_C5_grid_coverage (N_PATHS number_of_threads number_of_blocks : ℕ)
    (ht : 0 < number_of_threads) (hp : 0 < N_PATHS)
    (hblocks : number_of_blocks = (N_PATHS - 1) / number_of_threads + 1) :
    gpuGridIndices number_of_blocks number_of_threads N_PATHS = List.range N_PATHS
      ∧ (∀ k : ℕ, List.count k (gpuGridIndices number_of_blocks number_of_threads N_PATHS)
          = if k < N_PATHS then 1 else 0)
      ∧ (∀ ii : ℕ, ii < number_of_blocks * number_of_threads →
          (rangeStride ii N_PATHS (number_of_blocks * number_of_threads)).length
              = (N_PATHS + number_of_blocks * number_of_threads - 1)
                  / (number_of_blocks * number_of_threads)
            ∨ (rangeStride ii N_PATHS (number_of_blocks * number_of_threads)).length
              = N_PATHS / (number_of_blocks * number_of_threads)) := by
  subst hblocks
  have hrange := gpuGridIndices_eq_range N_PATHS number_of_threads ht hp
  have hpu := launch_units_ge N_PATHS number_of_threads ht hp
  refine ⟨hrange, ?_, ?_⟩
  · intro k
    rw [hrange]
    by_cases hk : k < N_PATHS
    · rw [if_pos hk]
      exact List.count_eq_one_of_mem (List.nodup_range N_PATHS) (List.mem_range.mpr hk)
    · rw [if_neg hk]
      exact List.count_eq_zero_of_not_mem (fun hmem => hk (List.mem_range.mp hmem))
  · intro ii hii
    rw [rangeStride_of_ge ii N_PATHS _ hpu]
    by_cases hiip : ii < N_PATHS
    · left
      rw [if_pos hiip]
      have hceil : (N_PATHS + ((N_PATHS - 1) / number_of_threads + 1) * number_of_threads - 1)
          / (((N_PATHS - 1) / number_of_threads + 1) * number_of_threads) = 1 := by
        have hupos : 0 < ((N_PATHS - 1) / number_of_threads + 1) * number_of_threads := by
          positivity
        have h1 : 1 ≤ (N_PATHS + ((N_PATHS - 1) / number_of_threads + 1) * number_of_threads - 1)
            / (((N_PATHS - 1) / number_of_threads + 1) * number_of_threads) :=
          (Nat.one_le_div_iff hupos).mpr (by omega)
        have h2 : (N_PATHS + ((N_PATHS - 1) / number_of_threads + 1) * number_of_threads - 1)
            / (((N_PATHS - 1) / number_of_threads + 1) * number_of_threads) < 2 :=
          Nat.div_lt_of_lt_mul (by omega)
        omega
      rw [hceil]
      rfl
    · right
      rw [if_neg hiip]
      have hlt : N_PATHS < ((N_PATHS - 1) / number_of_threads + 1) * number_of_threads := by
        omega
      rw [Nat.div_eq_of_lt hlt]
      rfl

/-- Witness for C5 at a concrete instance: five paths on three blocks of two
threads, so blocks = (5-1)//2 + 1 = 3 and the grid has six units. -/
theorem claim_C5_witness :
    gpuGridIndices 3 2 5 = List.range 5
      ∧ (∀ k : ℕ, List.count k (gpuGridIndices 3 2 5) = if k < 5 then 1 else 0)
      ∧ (∀ ii : ℕ, ii < 3 * 2 →
          (rangeStride ii 5 (3 * 2)).length = (5 + 3 * 2 - 1) / (3 * 2)
            ∨ (rangeStride ii 5 (3 * 2)).length = 5 / (3 * 2)) :=
  claim_C5_grid_coverage 5 2 3 (by decide) (by decide) (by decide)

/-- Inversion of one device path body: a successful value is the discounted
single payoff formula applied to the loop result. -/
lemma gpuPathPayoff_inv (tmp1 tmp2 tmp3 sigma B K S0 : ℚ) (d_normals : List ℚ)
    (N_STEPS N_PATHS i : ℕ) (w : ℚ)
    (h : gpuPathPayoff tmp1 tmp2 tmp3 sigma B K S0 d_normals N_STEPS N_PATHS i = some w) :
    ∃ running_average,
      gpuPathLoop tmp1 sigma tmp3 B d_normals N_PATHS i 0 N_STEPS S0 0 = some running_average
        ∧ w = tmp2 * (if running_average > K then running_average - K else 0) := by
  rw [gpuPathPayoff] at h
  cases hl : gpuPathLoop tmp1 sigma tmp3 B d_normals N_PATHS i 0 N_STEPS S0 0 with
  | none => rw [hl] at h; exact absurd h (by simp)
  | some ra =>
    rw [hl] at h
    simp only [Option.some.injEq] at h
    exact ⟨ra, rfl, h.symm⟩

/-- C2: started from price = spot and running average = 0, the per-path loop
of the CPU kernels and of the device kernel realizes exactly the spec
recurrences sSeq (price advanced first, by the drift increment plus the
volatility-scaled draw of step n read at i + n*N_PATHS) and avgSeq (the
streaming mean folded over the just-updated price), step by step until the
stop step, and returns the running average there. -/
theorem claim_C2_step_recurrences (tmp1 sigma tmp3 B S0 : ℚ) (dval : ℕ → ℚ)
    (d_normals : List ℚ) (N_PATHS N_STEPS i : ℕ)
    (hreads : ∀ k, k < stopIndex B (avgSeq tmp1 sigma tmp3 S0 dval) 0 N_STEPS →
      d_normals[i + k * N_PATHS]? = some (dval k)) :
    cpuPathLoop tmp1 sigma tmp3 B d_normals N_PATHS i 0 N_STEPS S0 0
        = some (avgSeq tmp1 sigma tmp3 S0 dval
            (stopIndex B (avgSeq tmp1 sigma tmp3 S0 dval) 0 N_STEPS))
      ∧ gpuPathLoop tmp1 sigma tmp3 B d_normals N_PATHS i 0 N_STEPS S0 0
        = some (avgSeq tmp1 sigma tmp3 S0 dval
            (stopIndex B (avgSeq tmp1 sigma tmp3 S0 dval) 0 N_STEPS)) := by
  have h1 : cpuPathLoop tmp1 sigma tmp3 B d_normals N_PATHS i 0 N_STEPS S0 0
      = some (avgSeq tmp1 sigma tmp3 S0 dval
          (stopIndex B (avgSeq tmp1 sigma tmp3 S0 dval) 0 N_STEPS)) :=
    cpuPathLoop_spec tmp1 sigma tmp3 B S0 dval d_normals N_PATHS i N_STEPS 0
      (fun k _ hk => hreads k hk)
  exact ⟨h1, by rw [← cpuPathLoop_eq_gpuPathLoop]; exact h1⟩

/-- Witness for C2 at a concrete instance: one path, one step, draw 1,
spot 90, barrier 100, unit volatility scale. -/
theorem claim_C2_witness :
    cpuPathLoop 0 1 1 100 [1] 1 0 0 1 90 0
        = some (avgSeq 0 1 1 90 (fun _ => 1)
            (stopIndex 100 (avgSeq 0 1 1 90 (fun _ => 1)) 0 1))
      ∧ gpuPathLoop 0 1 1 100 [1] 1 0 0 1 90 0
        = some (avgSeq 0 1 1 90 (fun _ => 1)
            (stopIndex 100 (avgSeq 0 1 1 90 (fun _ => 1)) 0 1)) :=
  claim_C2_step_recurrences 0 1 1 100 90 (fun _ => 1) [1] 1 1 0
    (by
      intro k hk
      have hle := stopIndex_le 100 (avgSeq 0 1 1 90 (fun _ => 1)) 1 0
      have hk1 : k = 0 := by omega
      subst hk1
      rfl)

/-- C3: on any successful run, each path's output slot holds exactly
discount * payoff where payoff is the single formula
(running_average - K if running_average > K else 0) applied to the running
average the loop returned — the last one computed, whether the loop ran to
completion or exited early on a breach — with no separate zero-assignment
on breach; stated for the serial kernel and for the device kernel under the
notebook launch configuration. -/
theorem claim_C3_single_payoff_formula (mexp msqrt : ℚ → ℚ) (d_s : List ℚ)
    (T K B S0 sigma mu r : ℚ) (d_normals : List ℚ) (N_STEPS N_PATHS : ℕ)
    (number_of_blocks number_of_threads : ℕ)
    (hblocks : number_of_blocks = (N_PATHS - 1) / number_of_threads + 1)
    (ht : 0 < number_of_threads) (hp : 0 < N_PATHS) :
    (∀ out, cpu_barrier_option mexp msqrt d_s T K B S0 sigma mu r d_normals N_STEPS N_PATHS = some out →
      ∀ i, i < N_PATHS → ∃ running_average,
        cpuPathLoop (mu * T / (N_STEPS : ℚ)) sigma (msqrt (T / (N_STEPS : ℚ))) B d_normals N_PATHS i 0 N_STEPS S0 0
            = some running_average
          ∧ out[i]? = some (mexp (-r * T) * (if running_average > K then running_average - K else 0)))
    ∧ (∀ out, numba_gpu_barrier_option number_of_blocks number_of_threads mexp msqrt d_s T K B S0 sigma mu r d_normals N_STEPS N_PATHS = some out →
      ∀ i, i < N_PATHS → ∃ running_average,
        gpuPathLoop (mu * T / (N_STEPS : ℚ)) sigma (msqrt (T / (N_STEPS : ℚ))) B d_normals N_PATHS i 0 N_STEPS S0 0
            = some running_average
          ∧ out[i]? = some (mexp (-r * T) * (if running_average > K then running_average - K else 0))) := by
  constructor
  · intro out h i hi
    rw [cpu_barrier_option_def] at h
    rcases processPaths_getElem_of_nodup _ (List.range N_PATHS) (List.nodup_range N_PATHS)
      d_s out h i (List.mem_range.mpr hi) with ⟨w, hf, hslot⟩
    rcases cpuPathPayoff_inv _ _ _ _ _ _ _ _ _ _ _ _ hf with ⟨ra, hloop, hw⟩
    exact ⟨ra, hloop, by rw [hslot, hw]⟩
  · intro out h i hi
    rw [numba_gpu_barrier_option_def, hblocks,
      gpuGridIndices_eq_range N_PATHS number_of_threads ht hp] at h
    rcases processPaths_getElem_of_nodup _ (List.range N_PATHS) (List.nodup_range N_PATHS)
      d_s out h i (List.mem_range.mpr hi) with ⟨w, hf, hslot⟩
    rcases gpuPathPayoff_inv _ _ _ _ _ _ _ _ _ _ _ _ hf with ⟨ra, hloop, hw⟩
    exact ⟨ra, hloop, by rw [hslot, hw]⟩

/-- Witness for C3 at a concrete instance: two paths, two steps, a grid of
two one-thread blocks. -/
theorem claim_C3_witness :
    (∀ out, cpu_barrier_option (fun _ => 1) (fun _ => 1) [0, 0] 1 1 1 2 1 1 1 [0, 0, 0, 0] 2 2 = some out →
      ∀ i, i < 2 → ∃ running_average,
        cpuPathLoop ((1:ℚ) * 1 / ((2:ℕ) : ℚ)) 1 ((fun _ => (1:ℚ)) (1 / ((2:ℕ) : ℚ))) 1 [0, 0, 0, 0] 2 i 0 2 2 0
            = some running_average
          ∧ out[i]? = some ((fun _ => (1:ℚ)) (-1 * 1) * (if running_average > 1 then running_average - 1 else 0)))
    ∧ (∀ out, numba_gpu_barrier_option 2 1 (fun _ => 1) (fun _ => 1) [0, 0] 1 1 1 2 1 1 1 [0, 0, 0, 0] 2 2 = some out →
      ∀ i, i < 2 → ∃ running_average,
        gpuPathLoop ((1:ℚ) * 1 / ((2:ℕ) : ℚ)) 1 ((fun _ => (1:ℚ)) (1 / ((2:ℕ) : ℚ))) 1 [0, 0, 0, 0] 2 i 0 2 2 0
            = some running_average
          ∧ out[i]? = some ((fun _ => (1:ℚ)) (-1 * 1) * (if running_average > 1 then running_average - 1 else 0))) :=
  claim_C3_single_payoff_formula (fun _ => 1) (fun _ => 1) [0, 0] 1 1 1 2 1 1 1 [0, 0, 0, 0] 2 2 2 1
    (by decide) (by decide) (by decide)

/-- C4: once the running average reaches or falls below the barrier for the
first time at step m, the per-path loop of either kernel terminates there
and returns the running average of step m; the hypotheses constrain the
draw buffer only at the steps before m, so no later step is ever read or
computed. -/
theorem claim_C4_early_exit (tmp1 sigma tmp3 B S0 : ℚ) (dval : ℕ → ℚ)
    (d_normals : List ℚ) (N_PATHS N_STEPS i m : ℕ)
    (hm1 : 1 ≤ m) (hm2 : m ≤ N_STEPS)
    (hbreach : avgSeq tmp1 sigma tmp3 S0 dval m ≤ B)
    (hfirst : ∀ k, 1 ≤ k → k < m → B < avgSeq tmp1 sigma tmp3 S0 dval k)
    (hreads : ∀ k, k < m → d_normals[i + k * N_PATHS]? = some (dval k)) :
    cpuPathLoop tmp1 sigma tmp3 B d_normals N_PATHS i 0 N_STEPS S0 0
        = some (avgSeq tmp1 sigma tmp3 S0 dval m)
      ∧ gpuPathLoop tmp1 sigma tmp3 B d_normals N_PATHS i 0 N_STEPS S0 0
        = some (avgSeq tmp1 sigma tmp3 S0 dval m) := by
  have hstop : stopIndex B (avgSeq tmp1 sigma tmp3 S0 dval) 0 N_STEPS = m :=
    stopIndex_eq_of_first_breach B (avgSeq tmp1 sigma tmp3 S0 dval) N_STEPS 0 m
      (by omega) (by omega) hbreach (fun k hk1 hk2 => hfirst k (by omega) hk2)
  have h1 : cpuPathLoop tmp1 sigma tmp3 B d_normals N_PATHS i 0 N_STEPS S0 0
      = some (avgSeq tmp1 sigma tmp3 S0 dval m) := by
    have := cpuPathLoop_spec tmp1 sigma tmp3 B S0 dval d_normals N_PATHS i N_STEPS 0
      (fun k _ hk => hreads k (by omega))
    rw [hstop] at this
    exact this
  exact ⟨h1, by rw [← cpuPathLoop_eq_gpuPathLoop]; exact h1⟩

/-- Witness for C4 at a concrete instance: zero drift and volatility scale,
spot 1 equal to the barrier, so the first running average breaches at step
1 of 3; the draw buffer only provides the step-0 draw. -/
theorem claim_C4_witness :
    cpuPathLoop 0 0 1 1 [0] 1 0 0 3 1 0 = some (avgSeq 0 0 1 1 (fun _ => 0) 1)
      ∧ gpuPathLoop 0 0 1 1 [0] 1 0 0 3 1 0 = some (avgSeq 0 0 1 1 (fun _ => 0) 1) :=
  claim_C4_early_exit 0 0 1 1 1 (fun _ => 0) [0] 1 3 0 1 (by decide) (by decide)
    (by
      show avgSeq 0 0 1 1 (fun _ => 0) 1 ≤ 1
      simp [avgSeq, sSeq])
    (by omega)
    (by
      intro k hk
      have hk0 : k = 0 := by omega
      subst hk0
      rfl)

/-- C7: with zero drift and all-zero draws, the simulated price stays
exactly at spot, the barrier is breached (at some step within the loop)
precisely when spot ≤ barrier, and when it is never breached every path's
stored discounted payoff is max(spot - strike, 0) * exp(-r*T). -/
theorem claim_C7_zero_draws_zero_drift (mexp msqrt : ℚ → ℚ) (d_s : List ℚ)
    (T K B S0 sigma mu r : ℚ) (d_normals : List ℚ) (N_STEPS N_PATHS : ℕ)
    (hmu : mu = 0) (hsteps : 1 ≤ N_STEPS) (hout : N_PATHS ≤ d_s.length)
    (hzero : ∀ j, j < N_PATHS → ∀ k, k < N_STEPS → d_normals[j + k * N_PATHS]? = some 0) :
    (∀ n, sSeq (mu * T / (N_STEPS : ℚ)) sigma (msqrt (T / (N_STEPS : ℚ))) S0 (fun _ => 0) n = S0)
    ∧ ((∃ m, 1 ≤ m ∧ m ≤ N_STEPS
          ∧ avgSeq (mu * T / (N_STEPS : ℚ)) sigma (msqrt (T / (N_STEPS : ℚ))) S0 (fun _ => 0) m ≤ B)
        ↔ S0 ≤ B)
    ∧ (B < S0 → ∃ out,
        cpu_barrier_option mexp msqrt d_s T K B S0 sigma mu r d_normals N_STEPS N_PATHS = some out
          ∧ ∀ j, j < N_PATHS → out[j]? = some (mexp (-r * T) * max (S0 - K) 0)) := by
  subst hmu
  have hsS : ∀ n, sSeq ((0:ℚ) * T / (N_STEPS : ℚ)) sigma (msqrt (T / (N_STEPS : ℚ))) S0 (fun _ => 0) n = S0 := by
    intro n
    induction n with
    | zero => rfl
    | succ n ih =>
      simp only [sSeq]
      rw [ih]
      ring
  have havg : ∀ n, 1 ≤ n →
      avgSeq ((0:ℚ) * T / (N_STEPS : ℚ)) sigma (msqrt (T / (N_STEPS : ℚ))) S0 (fun _ => 0) n = S0 := by
    intro n
    induction n with
    | zero => intro h; omega
    | succ n ih =>
      intro _
      rcases Nat.eq_zero_or_pos n with h0 | hpos
      · subst h0
        simp only [avgSeq]
        rw [hsS 1]
        norm_num
      · simp only [avgSeq]
        rw [ih hpos, hsS (n+1)]
        ring
  refine ⟨hsS, ?_, ?_⟩
  · constructor
    · rintro ⟨m, hm1, _, hmB⟩
      rw [havg m hm1] at hmB
      exact hmB
    · intro hSB
      exact ⟨1, Nat.le_refl 1, hsteps, by rw [havg 1 (Nat.le_refl 1)]; exact hSB⟩
  · intro hBS
    have hstop : stopIndex B
        (avgSeq ((0:ℚ) * T / (N_STEPS : ℚ)) sigma (msqrt (T / (N_STEPS : ℚ))) S0 (fun _ => 0)) 0 N_STEPS
        = 0 + N_STEPS :=
      stopIndex_eq_of_no_breach B _ N_STEPS 0
        (fun k hk1 _ => by rw [havg k (by omega)]; exact hBS)
    have hpath : ∀ j ∈ List.range N_PATHS,
        cpuPathPayoff ((0:ℚ) * T / (N_STEPS : ℚ)) (mexp (-r * T)) (msqrt (T / (N_STEPS : ℚ)))
            sigma B K S0 d_normals N_STEPS N_PATHS j
          = some (mexp (-r * T) * max (S0 - K) 0) := by
      intro j hj
      have hj2 := List.mem_range.mp hj
      rw [cpuPathPayoff_eq_spec ((0:ℚ) * T / (N_STEPS : ℚ)) (mexp (-r * T))
        (msqrt (T / (N_STEPS : ℚ))) sigma B K S0 (fun _ => 0) d_normals N_STEPS N_PATHS j
        (fun k hk => hzero j hj2 k (by rw [hstop] at hk; omega))]
      rw [hstop, havg (0 + N_STEPS) (by omega), payoff_if_eq_max]
    rw [cpu_barrier_option_def,
      processPaths_eq_foldl _ (fun _ => mexp (-r * T) * max (S0 - K) 0) (List.range N_PATHS) d_s
        hpath (fun j hj => by have := List.mem_range.mp hj; omega)]
    refine ⟨_, rfl, ?_⟩
    intro j hj
    rw [foldl_set_getElem?, if_pos (List.mem_range.mpr hj),
      List.getElem?_set_self (by omega)]

/-- Witness for C7 at a concrete instance: one path, two steps, all draws
zero, zero drift, spot 2 above barrier 1. -/
theorem claim_C7_witness :
    (∀ n, sSeq ((0:ℚ) * 1 / ((2:ℕ) : ℚ)) 1 ((fun _ => (1:ℚ)) (1 / ((2:ℕ) : ℚ))) 2 (fun _ => 0) n = 2)
    ∧ ((∃ m, 1 ≤ m ∧ m ≤ 2
          ∧ avgSeq ((0:ℚ) * 1 / ((2:ℕ) : ℚ)) 1 ((fun _ => (1:ℚ)) (1 / ((2:ℕ) : ℚ))) 2 (fun _ => 0) m ≤ 1)
        ↔ (2:ℚ) ≤ 1)
    ∧ ((1:ℚ) < 2 → ∃ out,
        cpu_barrier_option (fun _ => 1) (fun _ => 1) [0] 1 3 1 2 1 0 1 [0, 0] 2 1 = some out
          ∧ ∀ j, j < 1 → out[j]? = some ((fun _ => (1:ℚ)) (-1 * 1) * max ((2:ℚ) - 3) 0)) :=
  claim_C7_zero_draws_zero_drift (fun _ => 1) (fun _ => 1) [0] 1 3 1 2 1 0 1 [0, 0] 2 1
    rfl (by decide) (by decide) (by decide)

/-- C8 as amended: if spot is below the barrier and, in addition, the drift
and each path's step-0 draw are zero (so that the first simulated price
equals spot), then the first running average equals spot, every path
breaches immediately at step 0 and its loop returns after that single
update (the hypotheses constrain the draw buffer at step 0 only), and every
stored payoff is max(spot - strike, 0) * discount. -/
theorem claim_C8_amended_first_step_breach (mexp msqrt : ℚ → ℚ) (d_s : List ℚ)
    (T K B S0 sigma mu r : ℚ) (d_normals : List ℚ) (N_STEPS N_PATHS : ℕ)
    (hmu : mu = 0) (hS0 : S0 < B) (hsteps : 1 ≤ N_STEPS) (hout : N_PATHS ≤ d_s.length)
    (hzero0 : ∀ j : ℕ, j < N_PATHS → d_normals[j + 0 * N_PATHS]? = some 0) :
    avgSeq (mu * T / (N_STEPS : ℚ)) sigma (msqrt (T / (N_STEPS : ℚ))) S0 (fun _ => 0) 1 = S0
    ∧ (∀ j, j < N_PATHS →
        cpuPathLoop (mu * T / (N_STEPS : ℚ)) sigma (msqrt (T / (N_STEPS : ℚ))) B d_normals N_PATHS j 0 N_STEPS S0 0
          = some (avgSeq (mu * T / (N_STEPS : ℚ)) sigma (msqrt (T / (N_STEPS : ℚ))) S0 (fun _ => 0) 1))
    ∧ (∃ out,
        cpu_barrier_option mexp msqrt d_s T K B S0 sigma mu r d_normals N_STEPS N_PATHS = some out
          ∧ ∀ j, j < N_PATHS → out[j]? = some (mexp (-r * T) * max (S0 - K) 0)) := by
  subst hmu
  have havg1 : avgSeq ((0:ℚ) * T / (N_STEPS : ℚ)) sigma (msqrt (T / (N_STEPS : ℚ))) S0 (fun _ => 0) 1 = S0 := by
    simp only [avgSeq, sSeq]
    ring
  have hstop : stopIndex B
      (avgSeq ((0:ℚ) * T / (N_STEPS : ℚ)) sigma (msqrt (T / (N_STEPS : ℚ))) S0 (fun _ => 0)) 0 N_STEPS
      = 1 :=
    stopIndex_eq_of_first_breach B _ N_STEPS 0 1 (by omega) (by omega)
      (by rw [havg1]; linarith) (fun k hk1 hk2 => by omega)
  have hloop : ∀ j, j < N_PATHS →
      cpuPathLoop ((0:ℚ) * T / (N_STEPS : ℚ)) sigma (msqrt (T / (N_STEPS : ℚ))) B d_normals N_PATHS j 0 N_STEPS S0 0
        = some (avgSeq ((0:ℚ) * T / (N_STEPS : ℚ)) sigma (msqrt (T / (N_STEPS : ℚ))) S0 (fun _ => 0) 1) := by
    intro j hj
    have h := cpuPathLoop_spec ((0:ℚ) * T / (N_STEPS : ℚ)) sigma (msqrt (T / (N_STEPS : ℚ))) B S0
      (fun _ => 0) d_normals N_PATHS j N_STEPS 0
      (fun k hk1 hk2 => by
        rw [hstop] at hk2
        have hk0 : k = 0 := by omega
        subst hk0
        exact hzero0 j hj)
    rw [hstop] at h
    exact h
  refine ⟨havg1, hloop, ?_⟩
  have hpath : ∀ j ∈ List.range N_PATHS,
      cpuPathPayoff ((0:ℚ) * T / (N_STEPS : ℚ)) (mexp (-r * T)) (msqrt (T / (N_STEPS : ℚ)))
          sigma B K S0 d_normals N_STEPS N_PATHS j
        = some (mexp (-r * T) * max (S0 - K) 0) := by
    intro j hj
    rw [cpuPathPayoff, hloop j (List.mem_range.mp hj), havg1]
    show some (mexp (-r * T) * (if S0 > K then S0 - K else 0))
      = some (mexp (-r * T) * max (S0 - K) 0)
    rw [payoff_if_eq_max]
  rw [cpu_barrier_option_def,
    processPaths_eq_foldl _ (fun _ => mexp (-r * T) * max (S0 - K) 0) (List.range N_PATHS) d_s
      hpath (fun j hj => by have := List.mem_range.mp hj; omega)]
  refine ⟨_, rfl, ?_⟩
  intro j hj
  rw [foldl_set_getElem?, if_pos (List.mem_range.mpr hj),
    List.getElem?_set_self (by omega)]

/-- Witness for C8 at a concrete instance: one path, three steps, spot 1
below barrier 2, zero drift, step-0 draw 0; the draw buffer holds a single
value although three steps were requested, and is never read past step 0. -/
theorem claim_C8_amended_witness :
    avgSeq ((0:ℚ) * 1 / ((3:ℕ) : ℚ)) 1 ((fun _ => (1:ℚ)) (1 / ((3:ℕ) : ℚ))) 1 (fun _ => 0) 1 = 1
    ∧ (∀ j, j < 1 →
        cpuPathLoop ((0:ℚ) * 1 / ((3:ℕ) : ℚ)) 1 ((fun _ => (1:ℚ)) (1 / ((3:ℕ) : ℚ))) 2 [0] 1 j 0 3 1 0
          = some (avgSeq ((0:ℚ) * 1 / ((3:ℕ) : ℚ)) 1 ((fun _ => (1:ℚ)) (1 / ((3:ℕ) : ℚ))) 1 (fun _ => 0) 1))
    ∧ (∃ out,
        cpu_barrier_option (fun _ => 1) (fun _ => 1) [0] 1 1 2 1 1 0 1 [0] 3 1 = some out
          ∧ ∀ j, j < 1 → out[j]? = some ((fun _ => (1:ℚ)) (-1 * 1) * max ((1:ℚ) - 1) 0)) :=
  claim_C8_amended_first_step_breach (fun _ => 1) (fun _ => 1) [0] 1 1 2 1 1 0 1 [0] 3 1
    rfl (by decide) (by decide) (by decide) (by decide)

/-- C8 counterexample: spot 90 below barrier 100, strike 0, one path and
one step with draw 1 and unit volatility scale; the first running average
is 180, the first simulated price, not spot; it does not breach the
barrier, and the stored payoff 180 differs from
max(spot - strike, 0) * discount = 90. -/
theorem claim_C8_counterexample :
    cpu_barrier_option (fun _ => 1) (fun _ => 1) [0] 1 0 100 90 1 0 0 [1] 1 1 = some [180]
      ∧ avgSeq ((0:ℚ) * 1 / ((1:ℕ) : ℚ)) 1 ((fun _ => (1:ℚ)) (1 / ((1:ℕ) : ℚ))) 90 (fun _ => 1) 1 = 180
      ∧ ¬ avgSeq ((0:ℚ) * 1 / ((1:ℕ) : ℚ)) 1 ((fun _ => (1:ℚ)) (1 / ((1:ℕ) : ℚ))) 90 (fun _ => 1) 1 ≤ 100
      ∧ (180 : ℚ) ≠ max ((90:ℚ) - 0) 0 * 1 := by
  have havg1 : avgSeq ((0:ℚ) * 1 / ((1:ℕ) : ℚ)) 1 ((fun _ => (1:ℚ)) (1 / ((1:ℕ) : ℚ))) 90 (fun _ => 1) 1 = 180 := by
    simp only [avgSeq, sSeq]
    norm_num
  have hstop : stopIndex 100
      (avgSeq ((0:ℚ) * 1 / ((1:ℕ) : ℚ)) 1 ((fun _ => (1:ℚ)) (1 / ((1:ℕ) : ℚ))) 90 (fun _ => 1)) 0 1
      = 1 := by
    have h := stopIndex_eq_of_no_breach 100
      (avgSeq ((0:ℚ) * 1 / ((1:ℕ) : ℚ)) 1 ((fun _ => (1:ℚ)) (1 / ((1:ℕ) : ℚ))) 90 (fun _ => 1)) 1 0
      (fun k hk1 hk2 => by
        have hk : k = 1 := by omega
        subst hk
        rw [havg1]
        norm_num)
    omega
  refine ⟨?_, havg1, by rw [havg1]; norm_num, by norm_num⟩
  rw [cpu_barrier_option_def]
  refine Eq.trans (processPaths_eq_foldl _ (fun _ => (180:ℚ)) [0] [0] ?_ ?_) ?_
  · intro i hi
    have hi0 : i = 0 := by simpa using hi
    subst hi0
    show cpuPathPayoff ((0:ℚ) * 1 / ((1:ℕ) : ℚ)) ((fun _ => (1:ℚ)) (-(0:ℚ) * 1))
        ((fun _ => (1:ℚ)) (1 / ((1:ℕ) : ℚ))) 1 100 0 90 [1] 1 1 0 = some 180
    rw [cpuPathPayoff_eq_spec ((0:ℚ) * 1 / ((1:ℕ) : ℚ)) ((fun _ => (1:ℚ)) (-(0:ℚ) * 1))
      ((fun _ => (1:ℚ)) (1 / ((1:ℕ) : ℚ))) 1 100 0 90 (fun _ => 1) [1] 1 1 0
      (fun k hk => by
        rw [hstop] at hk
        have hk0 : k = 0 := by omega
        subst hk0
        rfl)]
    rw [hstop, havg1]
    norm_num
  · intro i hi
    have hi0 : i = 0 := by simpa using hi
    subst hi0
    decide
  · rfl

/-- C6 counterexample: the serial kernel called with the notebook's market
parameters, zero paths and an empty (hence mis-sized for 365 steps) draw
buffer does not fail fast with an invalid-argument condition: it returns
normally with the output buffer unchanged, because the source performs no
input validation at all. -/
theorem claim_C6_counterexample :
    cpu_barrier_option (fun _ => 1) (fun _ => 1) [5] 1 110 100 120 (35/100) (1/10) (5/100) [] 365 0
      = some [5] := rfl

/-- C6 as amended: the kernels perform no input validation. A call with
path count zero runs no path body and returns the output buffer unchanged —
a normal success, not an invalid-argument failure — for all three
strategies, whatever the draw buffer's length; buffer sizing is never
checked up front, and an out-of-range access can only surface as a failure
at the per-path loop step that performs it. -/
theorem claim_C6_amended_no_validation (mexp msqrt : ℚ → ℚ) (d_s : List ℚ)
    (T K B S0 sigma mu r : ℚ) (d_normals : List ℚ) (N_STEPS : ℕ)
    (number_of_blocks number_of_threads : ℕ) :
    cpu_barrier_option mexp msqrt d_s T K B S0 sigma mu r d_normals N_STEPS 0 = some d_s
      ∧ cpu_multicore_barrier_option [] mexp msqrt d_s T K B S0 sigma mu r d_normals N_STEPS 0
          = some d_s
      ∧ numba_gpu_barrier_option number_of_blocks number_of_threads mexp msqrt d_s T K B S0 sigma mu r d_normals N_STEPS 0
          = some d_s := by
  refine ⟨rfl, rfl, ?_⟩
  rw [numba_gpu_barrier_option_def, gpuGridIndices_paths_zero]
  rfl

/-- C9: no strategy mutates the random draw buffer — the heap after a
successful run carries the draw buffer that was read — and the only slots
of the output buffer a run modifies are 0..N_PATHS-1: its length is
preserved and every slot at index ≥ N_PATHS is unchanged. -/
theorem claim_C9_read_only_draws_and_frame (schedule : List ℕ)
    (number_of_blocks number_of_threads : ℕ) (mexp msqrt : ℚ → ℚ) (heap : SimHeap)
    (T K B S0 sigma mu r : ℚ) (N_STEPS N_PATHS : ℕ)
    (hsched : ∀ i ∈ schedule, i < N_PATHS) :
    (∀ heap2, cpuBarrierOptionOnHeap mexp msqrt heap T K B S0 sigma mu r N_STEPS N_PATHS = some heap2 →
      heap2.normals = heap.normals ∧ heap2.out.length = heap.out.length
        ∧ ∀ j, N_PATHS ≤ j → heap2.out[j]? = heap.out[j]?)
    ∧ (∀ heap2, cpuMulticoreBarrierOptionOnHeap schedule mexp msqrt heap T K B S0 sigma mu r N_STEPS N_PATHS = some heap2 →
      heap2.normals = heap.normals ∧ heap2.out.length = heap.out.length
        ∧ ∀ j, N_PATHS ≤ j → heap2.out[j]? = heap.out[j]?)
    ∧ (∀ heap2, numbaGpuBarrierOptionOnHeap number_of_blocks number_of_threads mexp msqrt heap T K B S0 sigma mu r N_STEPS N_PATHS = some heap2 →
      heap2.normals = heap.normals ∧ heap2.out.length = heap.out.length
        ∧ ∀ j, N_PATHS ≤ j → heap2.out[j]? = heap.out[j]?) := by
  refine ⟨?_, ?_, ?_⟩
  · intro heap2 h
    rw [cpuBarrierOptionOnHeap] at h
    cases hk : cpu_barrier_option mexp msqrt heap.out T K B S0 sigma mu r heap.normals N_STEPS N_PATHS with
    | none => rw [hk] at h; exact absurd h (by simp)
    | some out2 =>
      rw [hk] at h
      simp only [Option.some.injEq] at h
      subst h
      rw [cpu_barrier_option_def] at hk
      rcases processPaths_frame _ (List.range N_PATHS) heap.out out2 hk with ⟨hlen, hfr⟩
      exact ⟨rfl, hlen, fun j hj => hfr j (fun hmem => by
        have := List.mem_range.mp hmem
        omega)⟩
  · intro heap2 h
    rw [cpuMulticoreBarrierOptionOnHeap] at h
    cases hk : cpu_multicore_barrier_option schedule mexp msqrt heap.out T K B S0 sigma mu r heap.normals N_STEPS N_PATHS with
    | none => rw [hk] at h; exact absurd h (by simp)
    | some out2 =>
      rw [hk] at h
      simp only [Option.some.injEq] at h
      subst h
      rw [cpu_multicore_barrier_option_def] at hk
      rcases processPaths_frame _ schedule heap.out out2 hk with ⟨hlen, hfr⟩
      exact ⟨rfl, hlen, fun j hj => hfr j (fun hmem => by
        have := hsched j hmem
        omega)⟩
  · intro heap2 h
    rw [numbaGpuBarrierOptionOnHeap] at h
    cases hk : numba_gpu_barrier_option number_of_blocks number_of_threads mexp msqrt heap.out T K B S0 sigma mu r heap.normals N_STEPS N_PATHS with
    | none => rw [hk] at h; exact absurd h (by simp)
    | some out2 =>
      rw [hk] at h
      simp only [Option.some.injEq] at h
      subst h
      rw [numba_gpu_barrier_option_def] at hk
      rcases processPaths_frame _ (gpuGridIndices number_of_blocks number_of_threads N_PATHS)
        heap.out out2 hk with ⟨hlen, hfr⟩
      exact ⟨rfl, hlen, fun j hj => hfr j (fun hmem => by
        have := gpuGridIndices_mem_lt number_of_blocks number_of_threads N_PATHS j hmem
        omega)⟩

/-- Witness for C9 at a concrete instance: one path on a heap holding a
one-draw buffer and a one-slot output buffer. -/
theorem claim_C9_witness :
    (∀ heap2, cpuBarrierOptionOnHeap (fun _ => 1) (fun _ => 1) ⟨[0], [0]⟩ 1 1 2 1 1 0 1 1 1 = some heap2 →
      heap2.normals = (⟨[0], [0]⟩ : SimHeap).normals
        ∧ heap2.out.length = (⟨[0], [0]⟩ : SimHeap).out.length
        ∧ ∀ j, 1 ≤ j → heap2.out[j]? = (⟨[0], [0]⟩ : SimHeap).out[j]?)
    ∧ (∀ heap2, cpuMulticoreBarrierOptionOnHeap [0] (fun _ => 1) (fun _ => 1) ⟨[0], [0]⟩ 1 1 2 1 1 0 1 1 1 = some heap2 →
      heap2.normals = (⟨[0], [0]⟩ : SimHeap).normals
        ∧ heap2.out.length = (⟨[0], [0]⟩ : SimHeap).out.length
        ∧ ∀ j, 1 ≤ j → heap2.out[j]? = (⟨[0], [0]⟩ : SimHeap).out[j]?)
    ∧ (∀ heap2, numbaGpuBarrierOptionOnHeap 1 1 (fun _ => 1) (fun _ => 1) ⟨[0], [0]⟩ 1 1 2 1 1 0 1 1 1 = some heap2 →
      heap2.normals = (⟨[0], [0]⟩ : SimHeap).normals
        ∧ heap2.out.length = (⟨[0], [0]⟩ : SimHeap).out.length
        ∧ ∀ j, 1 ≤ j → heap2.out[j]? = (⟨[0], [0]⟩ : SimHeap).out[j]?) :=
  claim_C9_read_only_draws_and_frame [0] 1 1 (fun _ => 1) (fun _ => 1) ⟨[0], [0]⟩ 1 1 2 1 1 0 1 1 1
    (by decide)

/-- C10: with at least one path and one step, a draw buffer of length at
least N_PATHS * N_STEPS and an output buffer of length at least N_PATHS,
every read d_normals[i + n*N_PATHS] and every write d_s[i] of all three
kernels is in range, so the out-of-range (none) branch of the embedded
fallible indexing is unreachable and each kernel returns a result. -/
theorem claim_C10_memory_safety (mexp msqrt : ℚ → ℚ) (d_s : List ℚ)
    (T K B S0 sigma mu r : ℚ) (d_normals : List ℚ) (N_STEPS N_PATHS : ℕ)
    (schedule : List ℕ) (number_of_blocks number_of_threads : ℕ)
    (hp : 1 ≤ N_PATHS) (hs : 1 ≤ N_STEPS)
    (hnorm : N_PATHS * N_STEPS ≤ d_normals.length) (hout : N_PATHS ≤ d_s.length)
    (hsched : ∀ i ∈ schedule, i < N_PATHS) :
    (cpu_barrier_option mexp msqrt d_s T K B S0 sigma mu r d_normals N_STEPS N_PATHS).isSome = true
      ∧ (cpu_multicore_barrier_option schedule mexp msqrt d_s T K B S0 sigma mu r d_normals N_STEPS N_PATHS).isSome = true
      ∧ (numba_gpu_barrier_option number_of_blocks number_of_threads mexp msqrt d_s T K B S0 sigma mu r d_normals N_STEPS N_PATHS).isSome = true := by
  have hbody : ∀ i, i < N_PATHS →
      cpuPathPayoff (mu * T / (N_STEPS : ℚ)) (mexp (-r * T)) (msqrt (T / (N_STEPS : ℚ)))
        sigma B K S0 d_normals N_STEPS N_PATHS i ≠ none :=
    fun i hi => cpuPathPayoff_ne_none_of_sized _ _ _ _ _ _ _ d_normals N_STEPS N_PATHS i hi hnorm
  refine ⟨?_, ?_, ?_⟩
  · rw [cpu_barrier_option_def]
    cases hres : processPaths (fun i => cpuPathPayoff (mu * T / (N_STEPS : ℚ)) (mexp (-r * T))
        (msqrt (T / (N_STEPS : ℚ))) sigma B K S0 d_normals N_STEPS N_PATHS i)
        (List.range N_PATHS) d_s with
    | none =>
      rcases (processPaths_none_iff _ _ _).mp hres with ⟨i, hi, hbad⟩
      have hilt := List.mem_range.mp hi
      rcases hbad with hbad | hbad
      · exact absurd hbad (hbody i hilt)
      · omega
    | some out => rfl
  · rw [cpu_multicore_barrier_option_def]
    cases hres : processPaths (fun i => cpuPathPayoff (mu * T / (N_STEPS : ℚ)) (mexp (-r * T))
        (msqrt (T / (N_STEPS : ℚ))) sigma B K S0 d_normals N_STEPS N_PATHS i)
        schedule d_s with
    | none =>
      rcases (processPaths_none_iff _ _ _).mp hres with ⟨i, hi, hbad⟩
      have hilt := hsched i hi
      rcases hbad with hbad | hbad
      · exact absurd hbad (hbody i hilt)
      · omega
    | some out => rfl
  · rw [numba_gpu_barrier_option_def]
    cases hres : processPaths (fun i => gpuPathPayoff (mu * T / (N_STEPS : ℚ)) (mexp (-r * T))
        (msqrt (T / (N_STEPS : ℚ))) sigma B K S0 d_normals N_STEPS N_PATHS i)
        (gpuGridIndices number_of_blocks number_of_threads N_PATHS) d_s with
    | none =>
      rcases (processPaths_none_iff _ _ _).mp hres with ⟨i, hi, hbad⟩
      have hilt := gpuGridIndices_mem_lt number_of_blocks number_of_threads N_PATHS i hi
      rcases hbad with hbad | hbad
      · rw [← cpuPathPayoff_eq_gpuPathPayoff] at hbad
        exact absurd hbad (hbody i hilt)
      · omega
    | some out => rfl

/-- Witness for C10 at a concrete instance: one path, one step, a one-draw
buffer, a one-slot output buffer, the serial schedule and a one-unit
grid. -/
theorem claim_C10_witness :
    (cpu_barrier_option (fun _ => 1) (fun _ => 1) [0] 1 1 2 1 1 0 1 [0] 1 1).isSome = true
      ∧ (cpu_multicore_barrier_option [0] (fun _ => 1) (fun _ => 1) [0] 1 1 2 1 1 0 1 [0] 1 1).isSome = true
      ∧ (numba_gpu_barrier_option 1 1 (fun _ => 1) (fun _ => 1) [0] 1 1 2 1 1 0 1 [0] 1 1).isSome = true :=
  claim_C10_memory_safety (fun _ => 1) (fun _ => 1) [0] 1 1 2 1 1 0 1 [0] 1 1 [0] 1 1
    (by decide) (by decide) (by decide) (by decide) (by decide)

end CudaBarrier
